import Mathlib

/-!
Verification of the work-tracker CLI (src/work_tracker/main.py) against its
design specification.  The Python source is shallowly embedded: rows fetched
from SQLite become Lean structures, the SQL statements become list operations,
and loops become folds.  Machine integers are modelled as `Int`/`Nat` (SQLite
integers are arbitrary precision in the relevant range; Python ints are
unbounded, so no overflow modelling is needed).
-/

namespace WorkTracker

/-- Event type tag: the `type` column of the `events` table.  The program only
ever inserts the strings "start", "stop" and "marker". -/
inductive EventType where
  | start
  | stop
  | marker
deriving DecidableEq, Repr, BEq

/-- A row of the shape fetched by
`SELECT message, type, time FROM events WHERE project_id = ? ORDER BY time`:
exactly the tuples consumed by `calculate_work_duration` and by the loop in
`calculate_project_work_duration`. -/
structure SEvent where
  message : String
  type : EventType
  time : Int
deriving DecidableEq, Repr

/-- The loop of `calculate_work_duration` (main.py lines 136-147): state is
`(total_seconds, current_start)`, starting at `(0, None)`.
`start` overwrites `current_start`; `stop` with an open start adds
`timestamp - current_start` and clears it; `stop` with no open start and
`marker` leave the state unchanged. -/
def durStep (acc : Int × Option Int) (event : SEvent) : Int × Option Int :=
  match event.type with
  | EventType.start => (acc.1, some event.time)
  | EventType.stop =>
      match acc.2 with
      | some s => (acc.1 + (event.time - s), none)
      | none => acc
  | EventType.marker => acc

/-- The fold of `durStep` over the event list from the initial state
`total_seconds = 0`, `current_start = None`. -/
def durFold (events : List SEvent) : Int × Option Int :=
  events.foldl durStep (0, none)

/-- `total_seconds` as computed by `calculate_work_duration`
(main.py lines 136-153): the fold, plus `now - current_start` when an
unclosed start remains.  `now` stands for `int(time.time())` at line 151. -/
def calculate_work_duration_seconds (events : List SEvent) (now : Int) : Int :=
  match durFold events with
  | (total, some s) => total + (now - s)
  | (total, none) => total

/-- `calculate_work_duration` (main.py lines 134-160): returns the
`formatted` string `f"{hours}h {minutes}m {seconds}s"` obtained via
`divmod(total_seconds, 3600)` and `divmod(remainder, 60)`.  Python's
`divmod` is floor division; for the positive divisors 3600 and 60 this
agrees with Lean's `Int` division and modulus. -/
def calculate_work_duration (events : List SEvent) (now : Int) : String :=
  let total_seconds := calculate_work_duration_seconds events now
  let hours := total_seconds / 3600
  let remainder := total_seconds % 3600
  let minutes := remainder / 60
  let seconds := remainder % 60
  s!"{hours}h {minutes}m {seconds}s"

/-- The body of `calculate_project_work_duration` after the rows are fetched
(main.py lines 260-285), translated independently of
`calculate_work_duration`: the same loop and the same `divmod` formatting,
but returning both `total_seconds` and `formatted`. -/
def calculate_project_work_duration (events : List SEvent) (now : Int) :
    Int × String :=
  let r := events.foldl
    (fun acc event =>
      match event.type with
      | EventType.start => (acc.1, some event.time)
      | EventType.stop =>
          match acc.2 with
          | some s => (acc.1 + (event.time - s), none)
          | none => acc
      | EventType.marker => acc) ((0 : Int), (none : Option Int))
  let total_seconds :=
    match r with
    | (total, some s) => total + (now - s)
    | (total, none) => total
  let hours := total_seconds / 3600
  let remainder := total_seconds % 3600
  let minutes := remainder / 60
  let seconds := remainder % 60
  (total_seconds, s!"{hours}h {minutes}m {seconds}s")

/-- A row of the `projects` table:
`projects(id PK autoincrement, name text not null unique, is_default boolean)`. -/
structure ProjectRow where
  id : Nat
  name : String
  is_default : Bool
deriving DecidableEq, Repr

/-- A row of the `events` table:
`events(id PK autoincrement, message, type, time, project_id)`. -/
structure EventRow where
  id : Nat
  message : String
  type : EventType
  time : Int
  project_id : Nat
deriving DecidableEq, Repr

/-- The persistent store: both tables in rowid (insertion) order, together
with the next AUTOINCREMENT id of each table. -/
structure DB where
  events : List EventRow
  projects : List ProjectRow
  next_event_id : Nat
  next_project_id : Nat
deriving DecidableEq, Repr

/-- A freshly created database file: both tables empty, AUTOINCREMENT ids
start at 1. -/
def emptyDB : DB :=
  { events := [], projects := [], next_event_id := 1, next_project_id := 1 }

/-- `init_db` (main.py lines 32-66): creates the tables if they do not exist;
if `SELECT COUNT(*) FROM projects` returns 0, inserts `("default", 1)`. -/
def init_db (db : DB) : DB :=
  if db.projects.length = 0 then
    { db with
        projects := db.projects ++ [⟨db.next_project_id, "default", true⟩],
        next_project_id := db.next_project_id + 1 }
  else db

/-- `get_current_project` (main.py lines 68-80): the first row of
`SELECT id, name FROM projects WHERE is_default = 1`, or the synthesized
`{"id": 1, "name": "default"}` when the query returns no row. -/
def get_current_project (db : DB) : Nat × String :=
  match db.projects.find? (fun p => p.is_default) with
  | some p => (p.id, p.name)
  | none => (1, "default")

/-- `UPDATE projects SET is_default = 0` (main.py line 102). -/
def clearDefaults (ps : List ProjectRow) : List ProjectRow :=
  ps.map (fun q => { q with is_default := false })

/-- `UPDATE projects SET is_default = 1 WHERE id = ?` (main.py line 105). -/
def setDefault (pid : Nat) (ps : List ProjectRow) : List ProjectRow :=
  ps.map (fun q => if q.id = pid then { q with is_default := true } else q)

/-- `set_project` (main.py lines 82-110): select the id of the row named
`name` if one exists, else insert `(name, 0)` and take its new id; then
clear `is_default` on all rows and set it on the selected id.  Returns the
updated store and the `{"id", "name"}` dict the function returns. -/
def set_project (name : String) (db : DB) : DB × (Nat × String) :=
  match db.projects.find? (fun p => decide (p.name = name)) with
  | some p =>
      ({ db with projects := setDefault p.id (clearDefaults db.projects) },
       (p.id, name))
  | none =>
      let pid := db.next_project_id
      ({ db with
          projects := setDefault pid
            (clearDefaults (db.projects ++ [⟨pid, name, false⟩])),
          next_project_id := pid + 1 },
       (pid, name))

/-- `insert_event` (main.py lines 112-132): reads the current project,
inserts the event row (with `now` standing for `int(time.time())`), and
returns the confirmation dict `(message, type, time, project name)`. -/
def insert_event (event_type : EventType) (message : String) (now : Int)
    (db : DB) : DB × (String × EventType × Int × String) :=
  let current_project := get_current_project db
  ({ db with
      events := db.events ++
        [⟨db.next_event_id, message, event_type, now, current_project.1⟩],
      next_event_id := db.next_event_id + 1 },
   (message, event_type, now, current_project.2))

/-- `COALESCE((SELECT MAX(id) FROM events WHERE type = 'stop' AND
project_id = ?), 0)` (main.py lines 364-366): 0 when the project has no
stop event (row ids are at least 1, so the seed never masks a real id). -/
def max_stop_id (db : DB) (pid : Nat) : Nat :=
  (db.events.filter (fun e =>
      decide (e.type = EventType.stop) && decide (e.project_id = pid))).foldl
    (fun m e => max m e.id) 0

/-- The `has_active_start` query of `main` (main.py lines 360-369): true iff
some `start` event of the project has an id greater than every `stop` id
of the project. -/
def has_active_start (db : DB) (pid : Nat) : Bool :=
  db.events.any (fun e =>
    decide (e.type = EventType.start) && decide (e.project_id = pid) &&
      decide (max_stop_id db pid < e.id))

/-- The bare-invocation branch of `main` (main.py lines 353-379): if the
current project has an active start, append a `marker` event, otherwise
append a `start` event. -/
def record_bare (message : String) (now : Int) (db : DB) :
    DB × (String × EventType × Int × String) :=
  let current_project := get_current_project db
  if has_active_start db current_project.1 then
    insert_event EventType.marker message now db
  else
    insert_event EventType.start message now db

/-- Number of rows of the `projects` table flagged default:
`SELECT COUNT(*) FROM projects WHERE is_default = 1`. -/
def countDefaults (ps : List ProjectRow) : Nat :=
  (ps.filter (fun p => p.is_default)).length

/-- The constraints SQLite enforces on the `projects` table together with the
AUTOINCREMENT discipline: every id is below the next id to be assigned,
ids are pairwise distinct (`id PK`), and names are pairwise distinct
(`name text not null unique`). -/
def DBSchemaOK (db : DB) : Prop :=
  (∀ p ∈ db.projects, p.id < db.next_project_id) ∧
  (db.projects.map (fun p => p.id)).Nodup ∧
  (db.projects.map (fun p => p.name)).Nodup

/-- The registry invariant maintained on reachable states: the schema
constraints hold and at most one row is flagged default. -/
def RegistryInv (db : DB) : Prop :=
  DBSchemaOK db ∧ countDefaults db.projects ≤ 1

/-- Store states reachable by runs of the CLI: a fresh database file, then
per invocation `init_db` followed by at most one mutating operation
(`set_project`, an explicit event insertion such as the stop flag, or the
bare-invocation branch); read-only commands perform `init_db` only. -/
inductive Reachable : DB → Prop where
  | base : Reachable (init_db emptyDB)
  | reinit {db : DB} : Reachable db → Reachable (init_db db)
  | set {db : DB} (name : String) :
      Reachable db → Reachable (set_project name (init_db db)).1
  | record {db : DB} (t : EventType) (m : String) (now : Int) :
      Reachable db → Reachable (insert_event t m now (init_db db)).1
  | bare {db : DB} (m : String) (now : Int) :
      Reachable db → Reachable (record_bare m now (init_db db)).1

/-- Insertion into a time-sorted list, keeping earlier rows first among equal
timestamps.  `ORDER BY time` returns some time-sorted permutation of the
rows; on a table whose rows are already time-sorted (the case the system
assumes: monotonic wall clock), every such permutation that is stable is
the identity, which this models. -/
def insertByTime (e : EventRow) : List EventRow → List EventRow
  | [] => [e]
  | x :: xs =>
      if e.time ≤ x.time then e :: x :: xs else x :: insertByTime e xs

/-- Sorting by `time`: the `ORDER BY time` of the event queries. -/
def sortByTime (l : List EventRow) : List EventRow :=
  l.foldr insertByTime []

/-- `SELECT message, type, time FROM events WHERE project_id = ? ORDER BY
time` (main.py lines 168-171, and the identical query at lines 252-255). -/
def list_for_project (db : DB) (pid : Nat) : List (String × EventType × Int) :=
  (sortByTime (db.events.filter (fun e => decide (e.project_id = pid)))).map
    (fun e => (e.message, e.type, e.time))

/-- If the fold leaves an open start `s`, then `s` is the timestamp of some
event of the list (or was already open in the initial accumulator). -/
theorem durStep_foldl_snd_mem (evs : List SEvent) :
    ∀ (acc : Int × Option Int) (s : Int),
      (evs.foldl durStep acc).2 = some s →
      s ∈ evs.map (fun a => a.time) ∨ acc.2 = some s := by
  induction evs with
  | nil => intro acc s h; exact Or.inr h
  | cons e t ih =>
      intro acc s h
      rw [List.foldl_cons] at h
      rcases ih (durStep acc e) s h with hmem | hacc
      · exact Or.inl (List.mem_cons_of_mem _ hmem)
      · unfold durStep at hacc
        rcases he : e.type with _ | _ | _ <;> rw [he] at hacc
        · simp only [Option.some.injEq] at hacc
          exact Or.inl (by simp [hacc])
        · rcases ha : acc.2 with _ | x <;> rw [ha] at hacc
          · exact Or.inr (ha ▸ hacc)
          · simp at hacc
        · exact Or.inr hacc

/-- One step of the fold never decreases the closed-interval total, provided
any open start is no later than the incoming event's timestamp. -/
theorem durStep_fst_mono (acc : Int × Option Int) (e : SEvent)
    (h : ∀ s, acc.2 = some s → s ≤ e.time) :
    acc.1 ≤ (durStep acc e).1 := by
  rcases acc with ⟨t, c⟩
  rcases he : e.type with _ | _ | _ <;>
    rcases c with _ | s <;>
      simp_all [durStep]

/-- Appending one event whose timestamp is at least every earlier timestamp
never decreases the closed-interval total of the fold. -/
theorem durFold_fst_le_append (evs : List SEvent) (e : SEvent)
    (hle : ∀ a ∈ evs, a.time ≤ e.time) :
    (durFold evs).1 ≤ (durFold (evs ++ [e])).1 := by
  unfold durFold
  rw [List.foldl_append, List.foldl_cons, List.foldl_nil]
  apply durStep_fst_mono
  intro s hs
  have hmem := durStep_foldl_snd_mem evs ((0 : Int), (none : Option Int)) s hs
  simp only [Option.some.injEq, reduceCtorEq, or_false] at hmem
  rcases List.mem_map.mp hmem with ⟨a, ha, hat⟩
  exact hat ▸ hle a ha

/-- For a list of events with non-decreasing timestamps, the closed-interval
total of the fold is non-negative. -/
theorem durFold_fst_nonneg (evs : List SEvent)
    (hs : evs.Pairwise (fun a b => a.time ≤ b.time)) :
    0 ≤ (durFold evs).1 := by
  induction evs using List.reverseRecOn with
  | nil => simp [durFold]
  | append_singleton l e ih =>
      have hl : l.Pairwise (fun a b => a.time ≤ b.time) :=
        List.Pairwise.sublist (List.sublist_append_left l [e]) hs
      have hle : ∀ a ∈ l, a.time ≤ e.time := by
        intro a ha
        have := (List.pairwise_append.mp hs).2.2 a ha e (List.mem_singleton_self e)
        exact this
      exact le_trans (ih hl) (durFold_fst_le_append l e hle)

/-- Clearing all defaults and then setting the id `pid` marks exactly the
rows whose id is `pid`. -/
theorem setDefault_clearDefaults_eq (pid : Nat) (ps : List ProjectRow) :
    setDefault pid (clearDefaults ps) =
      ps.map (fun q => { q with is_default := decide (q.id = pid) }) := by
  unfold setDefault clearDefaults
  rw [List.map_map]
  apply List.map_congr_left
  intro q _
  by_cases h : q.id = pid <;> simp [Function.comp, h]

/-- The clear-then-set update does not change the id column. -/
theorem map_id_setDefault_clearDefaults (pid : Nat) (ps : List ProjectRow) :
    (setDefault pid (clearDefaults ps)).map (fun p => p.id) =
      ps.map (fun p => p.id) := by
  rw [setDefault_clearDefaults_eq, List.map_map]
  rfl

/-- The clear-then-set update does not change the name column. -/
theorem map_name_setDefault_clearDefaults (pid : Nat) (ps : List ProjectRow) :
    (setDefault pid (clearDefaults ps)).map (fun p => p.name) =
      ps.map (fun p => p.name) := by
  rw [setDefault_clearDefaults_eq, List.map_map]
  rfl

/-- After clear-then-set, the number of default rows is the number of rows
whose id is the selected one. -/
theorem countDefaults_setDefault_clearDefaults (pid : Nat)
    (ps : List ProjectRow) :
    countDefaults (setDefault pid (clearDefaults ps)) =
      ps.countP (fun q => decide (q.id = pid)) := by
  rw [setDefault_clearDefaults_eq]
  unfold countDefaults
  rw [← List.countP_eq_length_filter, List.countP_map]
  apply List.countP_congr
  intro q _
  simp [Function.comp]

/-- With distinct ids, an id that occurs occurs in exactly one row. -/
theorem countP_id_eq_one (ps : List ProjectRow) (pid : Nat)
    (h : (ps.map (fun p => p.id)).Nodup)
    (hmem : pid ∈ ps.map (fun p => p.id)) :
    ps.countP (fun q => decide (q.id = pid)) = 1 := by
  induction ps with
  | nil => simp at hmem
  | cons q t ih =>
      rw [List.map_cons, List.nodup_cons] at h
      by_cases hq : q.id = pid
      · rw [List.countP_cons_of_pos _ _ (by simpa using hq)]
        have h0 : t.countP (fun r => decide (r.id = pid)) = 0 := by
          rw [List.countP_eq_zero]
          intro r hr
          simp only [decide_eq_true_eq]
          intro hrp
          exact h.1 (by rw [← hq] at hrp; exact List.mem_map.mpr ⟨r, hr, hrp⟩)
        omega
      · rw [List.countP_cons_of_neg _ _ (by simpa using hq)]
        rcases List.mem_map.mp hmem with ⟨r, hr, hrid⟩
        rcases List.mem_cons.mp hr with rfl | hrt
        · exact absurd hrid hq
        · exact ih h.2 (List.mem_map.mpr ⟨r, hrt, hrid⟩)

/-- With distinct ids, at most one row carries any given id. -/
theorem countP_id_le_one (ps : List ProjectRow) (pid : Nat)
    (h : (ps.map (fun p => p.id)).Nodup) :
    ps.countP (fun q => decide (q.id = pid)) ≤ 1 := by
  by_cases hmem : pid ∈ ps.map (fun p => p.id)
  · exact le_of_eq (countP_id_eq_one ps pid h hmem)
  · have h0 : ps.countP (fun q => decide (q.id = pid)) = 0 := by
      rw [List.countP_eq_zero]
      intro r hr
      simp only [decide_eq_true_eq]
      intro hrp
      exact hmem (List.mem_map.mpr ⟨r, hr, hrp⟩)
    omega

/-- Rows with the same id in a table with distinct ids are the same row. -/
theorem eq_of_id_eq (ps : List ProjectRow)
    (h : (ps.map (fun p => p.id)).Nodup) {p q : ProjectRow}
    (hp : p ∈ ps) (hq : q ∈ ps) (hid : p.id = q.id) : p = q :=
  List.inj_on_of_nodup_map h hp hq hid

/-- Sorting by time is the identity on a list already sorted by time. -/
theorem sortByTime_sorted_eq (l : List EventRow)
    (hs : l.Pairwise (fun a b => a.time ≤ b.time)) :
    sortByTime l = l := by
  induction l with
  | nil => rfl
  | cons x xs ih =>
      have hx : ∀ a ∈ xs, x.time ≤ a.time := fun a ha =>
        List.rel_of_pairwise_cons hs ha
      have hxs : sortByTime xs = xs := ih (List.Pairwise.of_cons hs)
      show insertByTime x (sortByTime xs) = x :: xs
      rw [hxs]
      cases xs with
      | nil => rfl
      | cons y ys =>
          have : x.time ≤ y.time := hx y (List.mem_cons_self y ys)
          unfold insertByTime
          rw [if_pos this]

/-- Effect of clear-then-set on a table containing a row with the selected id
`pid` and name `name`: schema facts are preserved, exactly one row ends up
flagged default, every flagged row carries `name`, a row named `name`
survives, and the length is unchanged. -/
theorem mark_spec (base : List ProjectRow) (pid : Nat) (name : String)
    (next : Nat)
    (hbound : ∀ q ∈ base, q.id < next)
    (hids : (base.map (fun p => p.id)).Nodup)
    (hnames : (base.map (fun p => p.name)).Nodup)
    (hpid : ∃ p ∈ base, p.id = pid ∧ p.name = name) :
    (∀ q ∈ setDefault pid (clearDefaults base), q.id < next) ∧
    ((setDefault pid (clearDefaults base)).map (fun p => p.id)).Nodup ∧
    ((setDefault pid (clearDefaults base)).map (fun p => p.name)).Nodup ∧
    countDefaults (setDefault pid (clearDefaults base)) = 1 ∧
    (∀ q ∈ setDefault pid (clearDefaults base),
      q.is_default = true → q.name = name) ∧
    (∃ q ∈ setDefault pid (clearDefaults base), q.name = name) ∧
    (setDefault pid (clearDefaults base)).length = base.length := by
  obtain ⟨p0, hp0mem, hp0id, hp0name⟩ := hpid
  refine ⟨?_, ?_, ?_, ?_, ?_, ?_, ?_⟩
  · intro q hq
    rw [setDefault_clearDefaults_eq] at hq
    rcases List.mem_map.mp hq with ⟨r, hr, rfl⟩
    exact hbound r hr
  · rw [map_id_setDefault_clearDefaults]
    exact hids
  · rw [map_name_setDefault_clearDefaults]
    exact hnames
  · rw [countDefaults_setDefault_clearDefaults]
    exact countP_id_eq_one base pid hids
      (List.mem_map.mpr ⟨p0, hp0mem, hp0id⟩)
  · intro q hq hdef
    rw [setDefault_clearDefaults_eq] at hq
    rcases List.mem_map.mp hq with ⟨r, hr, rfl⟩
    simp only [decide_eq_true_eq] at hdef
    have : r = p0 := eq_of_id_eq base hids hr hp0mem (by rw [hdef, hp0id])
    rw [this]
    exact hp0name
  · refine ⟨⟨p0.id, p0.name, decide (p0.id = pid)⟩, ?_, hp0name⟩
    rw [setDefault_clearDefaults_eq]
    exact List.mem_map.mpr ⟨p0, hp0mem, rfl⟩
  · rw [setDefault_clearDefaults_eq, List.length_map]

/-- Full characterisation of one `set_project` call on a store satisfying the
schema constraints: the constraints are preserved, exactly one row ends up
flagged default and every flagged row carries the requested name, a row
with the requested name exists afterwards, the table grows by at most one
row, and it does not grow at all when the name was already present. -/
theorem set_project_spec (db : DB) (name : String) (h : DBSchemaOK db) :
    DBSchemaOK (set_project name db).1 ∧
    countDefaults (set_project name db).1.projects = 1 ∧
    (∀ p ∈ (set_project name db).1.projects,
      p.is_default = true → p.name = name) ∧
    (∃ p ∈ (set_project name db).1.projects, p.name = name) ∧
    (set_project name db).1.projects.length ≤ db.projects.length + 1 ∧
    ((∃ p ∈ db.projects, p.name = name) →
      (set_project name db).1.projects.length = db.projects.length) := by
  obtain ⟨hbound, hids, hnames⟩ := h
  unfold set_project
  rcases hf : db.projects.find? (fun p => decide (p.name = name)) with _ | p
  · -- the name is new: a row (next_project_id, name, false) is inserted first
    rw [hf]
    have hnone : ∀ q ∈ db.projects, q.name ≠ name := by
      intro q hq
      have := List.find?_eq_none.mp hf q hq
      simpa using this
    set pid := db.next_project_id with hpid
    set base := db.projects ++ [(⟨pid, name, false⟩ : ProjectRow)] with hbase
    have hbound' : ∀ q ∈ base, q.id < pid + 1 := by
      intro q hq
      rcases List.mem_append.mp hq with hq | hq
      · exact Nat.lt_succ_of_lt (hbound q hq)
      · rw [List.mem_singleton.mp hq]
        exact Nat.lt_succ_self pid
    have hids' : (base.map (fun p => p.id)).Nodup := by
      rw [hbase, List.map_append]
      rw [List.nodup_append]
      refine ⟨hids, List.nodup_singleton _, ?_⟩
      intro a ha hb
      rcases List.mem_map.mp ha with ⟨r, hr, hrid⟩
      simp only [List.map_cons, List.map_nil, List.mem_singleton] at hb
      have : r.id < pid := hbound r hr
      omega
    have hnames' : (base.map (fun p => p.name)).Nodup := by
      rw [hbase, List.map_append]
      rw [List.nodup_append]
      refine ⟨hnames, List.nodup_singleton _, ?_⟩
      intro a ha hb
      rcases List.mem_map.mp ha with ⟨r, hr, hrname⟩
      simp only [List.map_cons, List.map_nil, List.mem_singleton] at hb
      exact hnone r hr (by rw [hrname, hb])
    have hin : ∃ q ∈ base, q.id = pid ∧ q.name = name := by
      refine ⟨⟨pid, name, false⟩, ?_, rfl, rfl⟩
      rw [hbase]
      exact List.mem_append_right _ (List.mem_singleton_self _)
    obtain ⟨m1, m2, m3, m4, m5, m6, m7⟩ :=
      mark_spec base pid name (pid + 1) hbound' hids' hnames' hin
    refine ⟨⟨m1, m2, m3⟩, m4, m5, m6, ?_, ?_⟩
    · rw [m7, hbase, List.length_append]
      simp
    · intro hex
      obtain ⟨q, hq, hqname⟩ := hex
      exact absurd hqname (hnone q hq)
  · -- the name exists: its first row is selected
    rw [hf]
    have hpmem : p ∈ db.projects := List.mem_of_find?_eq_some hf
    have hpname : p.name = name := by
      have := List.find?_some hf
      simpa using this
    have hin : ∃ q ∈ db.projects, q.id = p.id ∧ q.name = name :=
      ⟨p, hpmem, rfl, hpname⟩
    obtain ⟨m1, m2, m3, m4, m5, m6, m7⟩ :=
      mark_spec db.projects p.id name db.next_project_id hbound hids hnames hin
    exact ⟨⟨m1, m2, m3⟩, m4, m5, m6, by rw [m7]; omega, fun _ => m7⟩

/-- `init_db` preserves the registry invariant (inserting the seed row only
into an empty table). -/
theorem registryInv_init (db : DB) (h : RegistryInv db) :
    RegistryInv (init_db db) := by
  obtain ⟨⟨hb, hi, hn⟩, hc⟩ := h
  unfold init_db
  by_cases hlen : db.projects.length = 0
  · rw [if_pos hlen]
    have he : db.projects = [] := List.length_eq_zero.mp hlen
    rw [he]
    refine ⟨⟨?_, ?_, ?_⟩, ?_⟩
    · intro p hp
      simp only [List.nil_append, List.mem_singleton] at hp
      rw [hp]
      exact Nat.lt_succ_self _
    · simp
    · simp
    · simp [countDefaults]
  · rw [if_neg hlen]
    exact ⟨⟨hb, hi, hn⟩, hc⟩

/-- `insert_event` touches only the events table. -/
theorem registryInv_insert (db : DB) (t : EventType) (m : String) (now : Int)
    (h : RegistryInv db) : RegistryInv (insert_event t m now db).1 := h

/-- The bare-invocation branch is an `insert_event` with the type decided by
`has_active_start`. -/
theorem record_bare_eq (m : String) (now : Int) (db : DB) :
    record_bare m now db =
      insert_event
        (if has_active_start db (get_current_project db).1 then
          EventType.marker
        else EventType.start) m now db := by
  unfold record_bare
  by_cases hb : has_active_start db (get_current_project db).1 <;> simp [hb]

/-- `set_project` preserves the registry invariant. -/
theorem registryInv_set (db : DB) (name : String) (h : RegistryInv db) :
    RegistryInv (set_project name db).1 :=
  ⟨(set_project_spec db name h.1).1,
   le_of_eq (set_project_spec db name h.1).2.1⟩

/-- Every reachable store state satisfies the registry invariant. -/
theorem reachable_registryInv (db : DB) (h : Reachable db) : RegistryInv db := by
  have h0 : RegistryInv emptyDB := by
    refine ⟨⟨?_, ?_, ?_⟩, ?_⟩ <;> simp [emptyDB, countDefaults]
  induction h with
  | base => exact registryInv_init emptyDB h0
  | reinit _ ih => exact registryInv_init _ ih
  | set name _ ih => exact registryInv_set _ name (registryInv_init _ ih)
  | record t m now _ ih =>
      exact registryInv_insert _ t m now (registryInv_init _ ih)
  | bare m now _ ih =>
      rw [record_bare_eq]
      exact registryInv_insert _ _ m now (registryInv_init _ ih)

end WorkTracker

namespace WorkTracker

/-- C1: for the event sequence `[start@0, start@50, stop@200]`, the duration
engine counts only the second interval — the second start overwrites the
unclosed first start — giving a total of 150 seconds formatted
"0h 2m 30s", independently of the evaluation time `now` (no start remains
open after the final stop). -/
theorem double_start_counts_second_interval (now : Int) :
    calculate_work_duration_seconds
      [⟨"", EventType.start, 0⟩, ⟨"", EventType.start, 50⟩,
       ⟨"", EventType.stop, 200⟩] now = 150 ∧
    calculate_work_duration
      [⟨"", EventType.start, 0⟩, ⟨"", EventType.start, 50⟩,
       ⟨"", EventType.stop, 200⟩] now = "0h 2m 30s" := by
  constructor <;> rfl

/-- C5: for an event sequence whose timestamps are non-decreasing, appending
any event (keeping timestamps non-decreasing) never decreases the
closed-interval total of the duration fold — the accumulated total,
excluding the "now"-dependent open-session contribution, is monotonically
non-decreasing as events are appended in time order. -/
theorem closed_total_monotone (evs : List SEvent) (e : SEvent)
    (hs : (evs ++ [e]).Pairwise (fun a b => a.time ≤ b.time)) :
    (durFold evs).1 ≤ (durFold (evs ++ [e])).1 := by
  have hle : ∀ a ∈ evs, a.time ≤ e.time := by
    intro a ha
    exact (List.pairwise_append.mp hs).2.2 a ha e (List.mem_singleton_self e)
  exact durFold_fst_le_append evs e hle

/-- Closed witness for `closed_total_monotone` at a concrete input. -/
theorem closed_total_monotone_witness :
    (durFold [⟨"a", EventType.start, 0⟩]).1 ≤
      (durFold ([⟨"a", EventType.start, 0⟩] ++ [⟨"b", EventType.stop, 10⟩])).1 :=
  closed_total_monotone [⟨"a", EventType.start, 0⟩] ⟨"b", EventType.stop, 10⟩
    (by decide)

/-- C7: if the duration fold ends with an unmatched start at time `T`, then
evaluating at `now = T + 3661` adds `now - T = 3661` to the closed total;
in particular, for the single event `start@T`, the formatted output is
"1h 1m 1s" — an in-progress session counts toward the total as of
evaluation time. -/
theorem open_session_counts_to_now (evs : List SEvent) (T : Int) (msg : String)
    (h : (durFold evs).2 = some T) :
    calculate_work_duration_seconds evs (T + 3661) = (durFold evs).1 + 3661 ∧
    calculate_work_duration [⟨msg, EventType.start, T⟩] (T + 3661) =
      "1h 1m 1s" := by
  constructor
  · have h2 : durFold evs = ((durFold evs).1, some T) := by
      rw [← h]
    unfold calculate_work_duration_seconds
    rw [h2]
    ring
  · have hsec : calculate_work_duration_seconds
        [⟨msg, EventType.start, T⟩] (T + 3661) = 3661 := by
      unfold calculate_work_duration_seconds durFold
      rw [List.foldl_cons, List.foldl_nil]
      unfold durStep
      simp only
      ring
    unfold calculate_work_duration
    rw [hsec]
    rfl

/-- Closed witness for `open_session_counts_to_now` at a concrete input. -/
theorem open_session_counts_to_now_witness :
    calculate_work_duration_seconds [⟨"w", EventType.start, 5⟩] (5 + 3661) =
      (durFold [⟨"w", EventType.start, 5⟩]).1 + 3661 ∧
    calculate_work_duration [⟨"w", EventType.start, 5⟩] (5 + 3661) =
      "1h 1m 1s" :=
  open_session_counts_to_now [⟨"w", EventType.start, 5⟩] 5 "w" (by decide)

/-- C9: the duration computation inlined in `calculate_project_work_duration`
is equivalent to `calculate_work_duration`: for every event sequence and
every evaluation time, both produce the same total seconds and the same
formatted string. -/
theorem project_duration_refines_work_duration (evs : List SEvent) (now : Int) :
    (calculate_project_work_duration evs now).1 =
      calculate_work_duration_seconds evs now ∧
    (calculate_project_work_duration evs now).2 =
      calculate_work_duration evs now := by
  constructor <;> rfl

/-- C10: `calculate_work_duration` is a total Lean function over every event
sequence (it is defined by a structural fold), and for every sequence with
non-decreasing timestamps evaluated at a time `now` at least every
timestamp, the accumulated `total_seconds` is non-negative, so the hour
component `total_seconds / 3600` of the formatted output is non-negative
as well. -/
theorem duration_total_nonneg (evs : List SEvent) (now : Int)
    (hs : evs.Pairwise (fun a b => a.time ≤ b.time))
    (hn : ∀ a ∈ evs, a.time ≤ now) :
    0 ≤ calculate_work_duration_seconds evs now ∧
    0 ≤ calculate_work_duration_seconds evs now / 3600 := by
  have htot : 0 ≤ calculate_work_duration_seconds evs now := by
    have h0 := durFold_fst_nonneg evs hs
    unfold calculate_work_duration_seconds
    rcases hc : (durFold evs).2 with _ | s
    · have h2 : durFold evs = ((durFold evs).1, none) := by rw [← hc]
      rw [h2]
      exact h0
    · have h2 : durFold evs = ((durFold evs).1, some s) := by rw [← hc]
      rw [h2]
      have hmem := durStep_foldl_snd_mem evs ((0 : Int), (none : Option Int)) s
        (by unfold durFold at hc; exact hc)
      simp only [Option.some.injEq, reduceCtorEq, or_false] at hmem
      rcases List.mem_map.mp hmem with ⟨a, ha, hat⟩
      have hsn : s ≤ now := hat ▸ hn a ha
      simp only
      omega
  exact ⟨htot, Int.ediv_nonneg htot (by norm_num)⟩

/-- Closed witness for `duration_total_nonneg` at a concrete input. -/
theorem duration_total_nonneg_witness :
    0 ≤ calculate_work_duration_seconds
        [⟨"a", EventType.start, 3⟩, ⟨"b", EventType.marker, 4⟩] 10 ∧
    0 ≤ calculate_work_duration_seconds
        [⟨"a", EventType.start, 3⟩, ⟨"b", EventType.marker, 4⟩] 10 / 3600 :=
  duration_total_nonneg
    [⟨"a", EventType.start, 3⟩, ⟨"b", EventType.marker, 4⟩] 10
    (by decide) (by decide)

/-- C2: for every store state, a bare invocation appends to the current
project a `marker` event when `has_active_start` holds for it, and a
`start` event otherwise; and `has_active_start` holds exactly when some
start event of the project has an id greater than the maximum stop id of
the project (`max_stop_id` is 0 when no stop exists). -/
theorem bare_invocation_marker_or_start (db : DB) (message : String)
    (now : Int) :
    (record_bare message now db).1.events =
      db.events ++
        [⟨db.next_event_id, message,
          (if has_active_start db (get_current_project db).1 then
            EventType.marker
          else EventType.start), now, (get_current_project db).1⟩] ∧
    (has_active_start db (get_current_project db).1 = true ↔
      ∃ e ∈ db.events, e.type = EventType.start ∧
        e.project_id = (get_current_project db).1 ∧
        max_stop_id db (get_current_project db).1 < e.id) := by
  constructor
  · by_cases h : has_active_start db (get_current_project db).1 <;>
      simp [record_bare, insert_event, h]
  · simp only [has_active_start, List.any_eq_true, Bool.and_eq_true,
      decide_eq_true_eq]
    constructor
    · rintro ⟨e, he, ⟨h1, h2⟩, h3⟩
      exact ⟨e, he, h1, h2, h3⟩
    · rintro ⟨e, he, h1, h2, h3⟩
      exact ⟨e, he, ⟨h1, h2⟩, h3⟩

/-- C3: every store state reachable after `init_db` and any sequence of CLI
operations has at most one project flagged default; and initializing an
empty registry creates the single project `(1, "default")` flagged
current. -/
theorem reachable_at_most_one_default (db : DB) (h : Reachable db) :
    countDefaults db.projects ≤ 1 ∧
    (init_db emptyDB).projects = [⟨1, "default", true⟩] :=
  ⟨(reachable_registryInv db h).2, rfl⟩

/-- Closed witness for `reachable_at_most_one_default` at the initial state. -/
theorem reachable_at_most_one_default_witness :
    countDefaults (init_db emptyDB).projects ≤ 1 ∧
    (init_db emptyDB).projects = [⟨1, "default", true⟩] :=
  reachable_at_most_one_default (init_db emptyDB) Reachable.base

/-- C4: `set_project` is idempotent: on any store satisfying the SQLite
schema constraints, calling it twice with the same name leaves exactly one
project flagged current, every flagged row carries that name, inserts at
most one row in total, and leaves the name column duplicate-free. -/
theorem switch_to_idempotent (db : DB) (name : String) (h : DBSchemaOK db) :
    countDefaults (set_project name (set_project name db).1).1.projects = 1 ∧
    (∀ p ∈ (set_project name (set_project name db).1).1.projects,
      p.is_default = true → p.name = name) ∧
    (set_project name (set_project name db).1).1.projects.length ≤
      db.projects.length + 1 ∧
    ((set_project name (set_project name db).1).1.projects.map
      (fun p => p.name)).Nodup := by
  obtain ⟨h1ok, _, _, hex, hlen1, _⟩ := set_project_spec db name h
  obtain ⟨h2ok, hcount2, hflag2, _, _, hlen2⟩ :=
    set_project_spec (set_project name db).1 name h1ok
  refine ⟨hcount2, hflag2, ?_, h2ok.2.2⟩
  rw [hlen2 hex]
  exact hlen1

/-- Closed witness for `switch_to_idempotent` on the empty store. -/
theorem switch_to_idempotent_witness :
    countDefaults
        (set_project "alpha" (set_project "alpha" emptyDB).1).1.projects = 1 ∧
    (∀ p ∈ (set_project "alpha" (set_project "alpha" emptyDB).1).1.projects,
      p.is_default = true → p.name = "alpha") ∧
    (set_project "alpha" (set_project "alpha" emptyDB).1).1.projects.length ≤
      emptyDB.projects.length + 1 ∧
    ((set_project "alpha" (set_project "alpha" emptyDB).1).1.projects.map
      (fun p => p.name)).Nodup :=
  switch_to_idempotent emptyDB "alpha"
    (by refine ⟨?_, ?_, ?_⟩ <;> simp [emptyDB])

/-- C6: with the monotone wall-clock assumption the spec states (event
timestamps non-decreasing in append order), `list_for_project` returns
exactly the project's events in append order: the listed sequence equals
the append-ordered filter of the log, every event appended to the project
is listed, and every listed row comes from an event of that project. -/
theorem round_trip_list_for_project (db : DB) (pid : Nat)
    (hs : db.events.Pairwise (fun a b => a.time ≤ b.time)) :
    list_for_project db pid =
      (db.events.filter (fun e => decide (e.project_id = pid))).map
        (fun e => (e.message, e.type, e.time)) ∧
    (∀ e ∈ db.events, e.project_id = pid →
      (e.message, e.type, e.time) ∈ list_for_project db pid) ∧
    (∀ x ∈ list_for_project db pid,
      ∃ e ∈ db.events, e.project_id = pid ∧
        x = (e.message, e.type, e.time)) := by
  have hfs : (db.events.filter
      (fun e => decide (e.project_id = pid))).Pairwise
      (fun a b => a.time ≤ b.time) := hs.filter _
  have heq : list_for_project db pid =
      (db.events.filter (fun e => decide (e.project_id = pid))).map
        (fun e => (e.message, e.type, e.time)) := by
    unfold list_for_project
    rw [sortByTime_sorted_eq _ hfs]
  refine ⟨heq, ?_, ?_⟩
  · intro e he hp
    rw [heq]
    exact List.mem_map.mpr ⟨e, List.mem_filter.mpr ⟨he, by simpa using hp⟩,
      rfl⟩
  · intro x hx
    rw [heq] at hx
    rcases List.mem_map.mp hx with ⟨e, hef, rfl⟩
    rcases List.mem_filter.mp hef with ⟨he, hp⟩
    exact ⟨e, he, by simpa using hp, rfl⟩

/-- Closed witness for `round_trip_list_for_project` on a two-project log. -/
theorem round_trip_list_for_project_witness :
    list_for_project
        ⟨[⟨1, "a", EventType.start, 10, 1⟩, ⟨2, "b", EventType.stop, 20, 2⟩],
          [], 3, 1⟩ 1 =
      (([⟨1, "a", EventType.start, 10, 1⟩,
          ⟨2, "b", EventType.stop, 20, 2⟩] :
          List EventRow).filter (fun e => decide (e.project_id = 1))).map
        (fun e => (e.message, e.type, e.time)) ∧
    (∀ e ∈ ([⟨1, "a", EventType.start, 10, 1⟩,
        ⟨2, "b", EventType.stop, 20, 2⟩] : List EventRow),
      e.project_id = 1 →
      (e.message, e.type, e.time) ∈ list_for_project
        ⟨[⟨1, "a", EventType.start, 10, 1⟩, ⟨2, "b", EventType.stop, 20, 2⟩],
          [], 3, 1⟩ 1) ∧
    (∀ x ∈ list_for_project
        ⟨[⟨1, "a", EventType.start, 10, 1⟩, ⟨2, "b", EventType.stop, 20, 2⟩],
          [], 3, 1⟩ 1,
      ∃ e ∈ ([⟨1, "a", EventType.start, 10, 1⟩,
          ⟨2, "b", EventType.stop, 20, 2⟩] : List EventRow),
        e.project_id = 1 ∧ x = (e.message, e.type, e.time)) :=
  round_trip_list_for_project
    ⟨[⟨1, "a", EventType.start, 10, 1⟩, ⟨2, "b", EventType.stop, 20, 2⟩],
      [], 3, 1⟩ 1 (by decide)

/-- C8: `get_current_project` is total and always returns exactly one
project: the (first) row flagged default, or the synthesized
`{id: 1, name: "default"}` when no row is flagged default. -/
theorem get_current_never_fails (db : DB) :
    (∃ p ∈ db.projects, p.is_default = true ∧
        get_current_project db = (p.id, p.name)) ∨
    ((∀ p ∈ db.projects, p.is_default = false) ∧
      get_current_project db = (1, "default")) := by
  unfold get_current_project
  rcases hf : db.projects.find? (fun p => p.is_default) with _ | p
  · right
    refine ⟨?_, by rw [hf]⟩
    intro p hp
    have := List.find?_eq_none.mp hf p hp
    simpa using this
  · left
    exact ⟨p, List.mem_of_find?_eq_some hf,
      by simpa using List.find?_some hf, by rw [hf]⟩

end WorkTracker
